import Mathlib

-- ==========================================================================
-- Shallow embedding of the Helios Quant framework components under scrutiny.
--
-- Modelled source files:
--   * src/go/montecarlo/simulator.go     (Monte Carlo simulation + statistics)
--   * the Go API server (PortfolioData / SimulationResult / runMonteCarloAPI)
--   * src/r/risk_models.R                (VaR, CVaR, risk decomposition)
--   * src/r/optimization.R               (Markowitz, frontier, max Sharpe)
--   * the Next.js Black-Scholes route    (input validation of POST)
--
-- Floating-point numbers are modelled as exact reals (or rationals where the
-- computation is purely arithmetic), library solvers (quadprog solve.QP,
-- stats optim) as explicit function parameters constrained by their
-- documented contracts, and ambient state (wall-clock seeds) as explicit
-- environment parameters.
-- ==========================================================================

-- --------------------------------------------------------------------------
-- Go Monte Carlo simulator
-- --------------------------------------------------------------------------

-- Mirrors the Go struct `SimulationResult` of the API server: the four
-- fields Mean, StdDev, Percentile, Iterations, and nothing else.
structure SimulationResult where
  mean : ℝ
  stdDev : ℝ
  percentile : List ℝ
  iterations : ℕ

-- calculateStatistics: mean = sum/n; stdDev = sqrt(variance/n) where
-- variance accumulates (v-mean)^2; percentiles are read from the sorted
-- slice at indices int(0.05*n), ..., int(0.95*n) (exact: p*n/100 in ℕ).
noncomputable def calculateStatistics (results : List ℝ) : SimulationResult :=
  let n : ℝ := results.length
  let mean : ℝ := results.sum / n
  let variance : ℝ := (results.map fun v => (v - mean) ^ 2).sum
  let stdDev : ℝ := Real.sqrt (variance / n)
  let sorted : List ℝ := List.insertionSort (· ≤ ·) results
  { mean := mean
    stdDev := stdDev
    percentile :=
      [ sorted.getD (5 * results.length / 100) 0,
        sorted.getD (25 * results.length / 100) 0,
        sorted.getD (50 * results.length / 100) 0,
        sorted.getD (75 * results.length / 100) 0,
        sorted.getD (95 * results.length / 100) 0 ]
    iterations := results.length }

-- simulatePortfolioReturn: Box-Muller transform of two uniform draws.
noncomputable def simulatePortfolioReturn (mean stdDev u1 u2 : ℝ) : ℝ :=
  mean + stdDev * (Real.sqrt (-2 * Real.log u1) * Real.cos (2 * Real.pi * u2))

-- Chunking of runMonteCarloSimulation: chunkSize = iterations / jobs
-- (integer division); worker i covers [i*chunkSize, (i+1)*chunkSize),
-- except the last worker, whose chunk ends at `iterations`.
def chunkStart (iterations jobs i : ℕ) : ℕ := i * (iterations / jobs)

def chunkEnd (iterations jobs i : ℕ) : ℕ :=
  if i = jobs - 1 then iterations else (i + 1) * (iterations / jobs)

-- Each Go worker builds a fresh rand.Rand seeded with time.Now().UnixNano()
-- and consumes two Float64 draws per simulated return.  `U seed k` models
-- the k-th draw of the generator seeded with `seed`; `clock i` models the
-- UnixNano value observed by worker i at its start.
noncomputable def workerResults (U : ℕ → ℕ → ℝ) (seed : ℕ) (mean stdDev : ℝ)
    (count : ℕ) : List ℝ :=
  (List.range count).map fun k =>
    simulatePortfolioReturn mean stdDev (U seed (2 * k)) (U seed (2 * k + 1))

-- runMonteCarloSimulation fills results[j] positionally per chunk and then
-- reduces with calculateStatistics; joining the chunks in worker order
-- reproduces the index order of the shared results slice.
noncomputable def runMonteCarloSimulation (U : ℕ → ℕ → ℝ) (clock : ℕ → ℕ)
    (iterations : ℕ) (mean stdDev : ℝ) (jobs : ℕ) : SimulationResult :=
  calculateStatistics
    (((List.range jobs).map fun i =>
      workerResults U (clock i) mean stdDev
        (chunkEnd iterations jobs i - chunkStart iterations jobs i)).flatten)

inductive MCOutcome where
  | ok (result : SimulationResult)
  | badRequest (msg : String)

-- runMonteCarloAPI: a zero iteration count is replaced by the default
-- 10000 and zero jobs by 4; the simulation then runs unconditionally --
-- the handler has no domain-error branch for invalid numeric input.
-- (Go would panic on make([]float64, n) for negative n; the claims only
-- exercise the defaulting branch, where the count is positive.)
noncomputable def runMonteCarloAPI (U : ℕ → ℕ → ℝ) (clock : ℕ → ℕ)
    (iterations jobs : ℤ) (mean stdDev : ℝ) : MCOutcome :=
  let its : ℤ := if iterations = 0 then 10000 else iterations
  let js : ℤ := if jobs = 0 then 4 else jobs
  MCOutcome.ok (runMonteCarloSimulation U clock its.toNat mean stdDev js.toNat)

-- The numeric values a SimulationResult makes available to its caller.
def SimulationResult.reports (r : SimulationResult) (x : ℝ) : Prop :=
  x = r.mean ∨ x = r.stdDev ∨ x ∈ r.percentile ∨ x = (r.iterations : ℝ)

-- A concrete model of the seeded generator used to exhibit clock dependence:
-- the first draw is exp(-(1+seed)/2) ∈ (0,1), every later draw is 0.
noncomputable def mcStream (seed k : ℕ) : ℝ :=
  if k = 0 then Real.exp (-(1 + (seed : ℝ)) / 2) else 0

-- --------------------------------------------------------------------------
-- R risk models (src/r/risk_models.R)
-- --------------------------------------------------------------------------

-- R's default quantile (type 7): with the series sorted ascending and
-- h = (n-1)p (0-based), the quantile interpolates between the entries at
-- positions floor(h) and floor(h)+1.
def quantileHistorical (returns : List ℚ) (p : ℚ) : ℚ :=
  let s := List.insertionSort (· ≤ ·) returns
  let h : ℚ := ((s.length : ℚ) - 1) * p
  let i : ℕ := ⌊h⌋₊
  s.getD i 0 + (h - (i : ℚ)) * (s.getD (i + 1) 0 - s.getD i 0)

-- calculate_var, historical method: quantile(returns, 1 - confidence).
def calculate_var (returns : List ℚ) (confidence : ℚ) : ℚ :=
  quantileHistorical returns (1 - confidence)

-- calculate_cvar: mean(returns[returns <= var]).
def calculate_cvar (returns : List ℚ) (confidence : ℚ) : ℚ :=
  let v := calculate_var returns confidence
  let tail := returns.filter fun x => x ≤ v
  tail.sum / (tail.length : ℚ)

structure RiskDecomp (n : ℕ) where
  total_volatility : ℝ
  marginal_contribution : Fin n → ℝ
  component_contribution : Fin n → ℝ
  percentage_contribution : Fin n → ℝ

def portfolio_variance {n : ℕ} (w : Fin n → ℝ)
    (cov : Matrix (Fin n) (Fin n) ℝ) : ℝ :=
  ∑ i, w i * cov.mulVec w i

-- risk_decomposition: marginal = (Σw)/vol, component = w * marginal,
-- percentage = component / vol * 100.
noncomputable def risk_decomposition {n : ℕ} (w : Fin n → ℝ)
    (cov : Matrix (Fin n) (Fin n) ℝ) : RiskDecomp n :=
  let vol := Real.sqrt (portfolio_variance w cov)
  { total_volatility := vol
    marginal_contribution := fun i => cov.mulVec w i / vol
    component_contribution := fun i => w i * (cov.mulVec w i / vol)
    percentage_contribution := fun i => w i * (cov.mulVec w i / vol) / vol * 100 }

-- A one-asset portfolio used as a concrete witness instance.
def w1 : Fin 1 → ℝ := fun _ => 1

def cov1 : Matrix (Fin 1) (Fin 1) ℝ := Matrix.of fun _ _ => 1

-- --------------------------------------------------------------------------
-- R portfolio optimization (src/r/optimization.R)
-- --------------------------------------------------------------------------

noncomputable def dotL (x y : List ℝ) : ℝ := ((x.zip y).map fun p => p.1 * p.2).sum

noncomputable def matVecL (M : List (List ℝ)) (v : List ℝ) : List ℝ :=
  M.map fun row => dotL row v

-- One column of solve.QP's Amat together with its bvec entry.
structure QPConstraint where
  a : List ℝ
  b : ℝ

structure QPProblem where
  Dmat : List (List ℝ)
  dvec : List ℝ
  constraints : List QPConstraint
  meq : ℕ

def onesL (n : ℕ) : List ℝ := List.replicate n 1

def stdBasis (n i : ℕ) : List ℝ := (List.range n).map fun j => if j = i then 1 else 0

def diagConstraints (n : ℕ) : List QPConstraint :=
  (List.range n).map fun i => ⟨stdBasis n i, 0⟩

-- The QP assembled by markowitz_optimization: Dmat = 2Σ, dvec = 0; without
-- a target return Amat = [1 | I], bvec = (1,0..0), meq = 1; with one,
-- Amat = [1 | μ | I], bvec = (1,t,0..0), meq = 2.
noncomputable def markowitzProblem (expected_returns : List ℝ)
    (cov_matrix : List (List ℝ)) (target_return : Option ℝ) : QPProblem :=
  let n := expected_returns.length
  match target_return with
  | none =>
      { Dmat := cov_matrix.map (List.map fun x => 2 * x)
        dvec := List.replicate n 0
        constraints := ⟨onesL n, 1⟩ :: diagConstraints n
        meq := 1 }
  | some t =>
      { Dmat := cov_matrix.map (List.map fun x => 2 * x)
        dvec := List.replicate n 0
        constraints := ⟨onesL n, 1⟩ :: ⟨expected_returns, t⟩ :: diagConstraints n
        meq := 2 }

def satisfiesQP (p : QPProblem) (w : List ℝ) : Prop :=
  w.length = p.dvec.length ∧
  ∀ j, j < p.constraints.length →
    (j < p.meq →
      dotL (p.constraints.getD j ⟨[], 0⟩).a w = (p.constraints.getD j ⟨[], 0⟩).b) ∧
    (p.meq ≤ j →
      (p.constraints.getD j ⟨[], 0⟩).b ≤ dotL (p.constraints.getD j ⟨[], 0⟩).a w)

-- quadprog's solve.QP contract: a successful solve returns a vector of the
-- problem's dimension meeting the first meq constraints with equality and
-- the remaining ones as inequalities.  A raised error is modelled as none.
def QPSolverSpec (solveQP : QPProblem → Option (List ℝ)) : Prop :=
  ∀ p w, solveQP p = some w → satisfiesQP p w

structure OptResult where
  weights : List ℝ
  expected_return : ℝ
  volatility : ℝ
  sharpe : ℝ         -- named sharpe_ratio in the R source

noncomputable def markowitz_optimization (solveQP : QPProblem → Option (List ℝ))
    (expected_returns : List ℝ) (cov_matrix : List (List ℝ))
    (target_return : Option ℝ) : Option OptResult :=
  (solveQP (markowitzProblem expected_returns cov_matrix target_return)).map fun w =>
    let pr := dotL w expected_returns
    let pv := dotL w (matVecL cov_matrix w)
    { weights := w
      expected_return := pr
      volatility := Real.sqrt pv
      sharpe := pr / Real.sqrt pv }

noncomputable def listMin (l : List ℝ) : ℝ :=
  match l with
  | [] => 0
  | x :: xs => xs.foldl min x

noncomputable def listMax (l : List ℝ) : ℝ :=
  match l with
  | [] => 0
  | x :: xs => xs.foldl max x

-- seq(min(mu), max(mu), length.out = n).
noncomputable def targetReturns (expected_returns : List ℝ) (n_portfolios : ℕ) :
    List ℝ :=
  let mn := listMin expected_returns
  let mx := listMax expected_returns
  (List.range n_portfolios).map fun i =>
    mn + (i : ℝ) * ((mx - mn) / ((n_portfolios : ℝ) - 1))

-- One row of the frontier data frame; a cell holds none exactly when it is NA.
structure FrontierRow where
  ret : Option ℝ
  vol : Option ℝ
  sharpe : Option ℝ

-- data.frame(return = numeric(n), ...) initialises every cell to 0, not NA.
def initRow : FrontierRow := ⟨some 0, some 0, some 0⟩

-- On success the tryCatch body overwrites row i in the enclosing frame.  On
-- error the handler runs `frontier[i, ] <- NA`, but `<-` inside the handler
-- function assigns to a local copy of `frontier`, so the outer data frame
-- keeps its initial zero row.
noncomputable def frontierRow (solveQP : QPProblem → Option (List ℝ))
    (expected_returns : List ℝ) (cov_matrix : List (List ℝ)) (t : ℝ) :
    FrontierRow :=
  match markowitz_optimization solveQP expected_returns cov_matrix (some t) with
  | some opt => ⟨some opt.expected_return, some opt.volatility, some opt.sharpe⟩
  | none => initRow

def rowComplete (r : FrontierRow) : Bool :=
  r.ret.isSome && r.vol.isSome && r.sharpe.isSome

-- na.omit keeps exactly the rows without NA cells.
noncomputable def efficient_frontier (solveQP : QPProblem → Option (List ℝ))
    (expected_returns : List ℝ) (cov_matrix : List (List ℝ))
    (n_portfolios : ℕ) : List FrontierRow :=
  ((targetReturns expected_returns n_portfolios).map
    (frontierRow solveQP expected_returns cov_matrix)).filter rowComplete

-- The objective handed to optim: minus the Sharpe ratio of the weights.
noncomputable def msObjective (expected_returns : List ℝ)
    (cov_matrix : List (List ℝ)) (rf_rate : ℝ) : List ℝ → ℝ :=
  fun weights =>
    -((dotL weights expected_returns - rf_rate) /
      Real.sqrt (dotL weights (matVecL cov_matrix weights)))

-- optim(par = rep(1/n, n), fn = objective, method = L-BFGS-B,
-- lower = rep(0, n), upper = rep(1, n)): the optimiser is a parameter taking
-- (par, fn, lower, upper); msPar is the par component of its result.
noncomputable def msPar (optim : List ℝ → (List ℝ → ℝ) → List ℝ → List ℝ → List ℝ)
    (expected_returns : List ℝ) (cov_matrix : List (List ℝ)) (rf_rate : ℝ) :
    List ℝ :=
  let n := expected_returns.length
  optim (List.replicate n (1 / (n : ℝ))) (msObjective expected_returns cov_matrix rf_rate)
    (List.replicate n 0) (List.replicate n 1)

-- max_sharpe_portfolio: weights <- result$par / sum(result$par).
noncomputable def max_sharpe_portfolio
    (optim : List ℝ → (List ℝ → ℝ) → List ℝ → List ℝ → List ℝ)
    (expected_returns : List ℝ) (cov_matrix : List (List ℝ)) (rf_rate : ℝ) :
    OptResult :=
  let par := msPar optim expected_returns cov_matrix rf_rate
  let weights := par.map fun x => x / par.sum
  let pr := dotL weights expected_returns
  let pv := dotL weights (matVecL cov_matrix weights)
  { weights := weights
    expected_return := pr
    volatility := Real.sqrt pv
    sharpe := (pr - rf_rate) / Real.sqrt pv }

-- The L-BFGS-B box contract: for consistent bounds of the start's dimension,
-- the returned vector has that dimension and lies within the bounds.
def OptimBounded (optim : List ℝ → (List ℝ → ℝ) → List ℝ → List ℝ → List ℝ) : Prop :=
  ∀ par fn lower upper, lower.length = par.length → upper.length = par.length →
    (∀ i, i < par.length → lower.getD i 0 ≤ upper.getD i 0) →
    (optim par fn lower upper).length = par.length ∧
    ∀ i, i < par.length →
      lower.getD i 0 ≤ (optim par fn lower upper).getD i 0 ∧
      (optim par fn lower upper).getD i 0 ≤ upper.getD i 0

-- A family of contract-satisfying optimisers: clamp pick-points into the box.
noncomputable def projOptim (pick : List ℝ → ℕ → ℝ) :
    List ℝ → (List ℝ → ℝ) → List ℝ → List ℝ → List ℝ :=
  fun par _ lower upper =>
    (List.range par.length).map fun i =>
      max (lower.getD i 0) (min (pick par i) (upper.getD i 0))

noncomputable def zeroOpt : List ℝ → (List ℝ → ℝ) → List ℝ → List ℝ → List ℝ :=
  projOptim fun _ _ => 0

noncomputable def echoOpt : List ℝ → (List ℝ → ℝ) → List ℝ → List ℝ → List ℝ :=
  projOptim fun par i => par.getD i 0

-- A contract-satisfying solver used as a concrete witness: it answers w0
-- whenever w0 satisfies the problem's constraints, and fails otherwise.
open Classical in
noncomputable def oracleSolver (w0 : List ℝ) (p : QPProblem) : Option (List ℝ) :=
  if satisfiesQP p w0 then some w0 else none

-- A solver that always raises (e.g. solve.QP on a non-positive-definite D).
def failQP : QPProblem → Option (List ℝ) := fun _ => none

-- The optimisation result produced for the one-asset witness instance.
noncomputable def c4res : OptResult :=
  { weights := [1]
    expected_return := dotL [1] [1 / 10]
    volatility := Real.sqrt (dotL [1] (matVecL [[1]] [1]))
    sharpe := dotL [1] [1 / 10] / Real.sqrt (dotL [1] (matVecL [[1]] [1])) }

-- --------------------------------------------------------------------------
-- Next.js Black-Scholes pricing route (POST handler)
-- --------------------------------------------------------------------------

structure BSRequest where
  S : Option ℚ
  K : Option ℚ
  T : Option ℚ
  r : Option ℚ
  sigma : Option ℚ
  q : Option ℚ

-- JavaScript truthiness on a numeric field: absent or zero is falsy.
def falsy (x : Option ℚ) : Bool :=
  match x with
  | none => true
  | some v => v = 0

inductive BSOutcome where
  | rejected (msg : String)
  | computed (price : ℝ)

def BSOutcome.isRejected : BSOutcome → Bool :=
  fun o => match o with
  | .rejected _ => true
  | .computed _ => false

-- The route's POST handler: `if (!S || !K || !T || r === undefined ||
-- !sigma)` answers 400 with a generic message; otherwise the external
-- pricing script (a parameter here) is run on the request.
def bsPOST (runBlackScholes : BSRequest → ℝ) (req : BSRequest) : BSOutcome :=
  if falsy req.S || falsy req.K || falsy req.T || req.r.isNone || falsy req.sigma then
    BSOutcome.rejected "Missing required parameters"
  else
    BSOutcome.computed (runBlackScholes req)

-- The invalid numeric inputs named by the claim, for the fields this route
-- carries: non-positive spot or strike, negative time or volatility.
def invalidBSNumeric (req : BSRequest) : Prop :=
  (∃ v, req.S = some v ∧ v ≤ 0) ∨ (∃ v, req.K = some v ∧ v ≤ 0) ∨
  (∃ v, req.T = some v ∧ v < 0) ∨ (∃ v, req.sigma = some v ∧ v < 0)

-- ==========================================================================
-- Theorems
-- ==========================================================================

-- ------------------------- generic list helpers ---------------------------

theorem getD_of_lt {α : Type} (l : List α) (d : α) (i : ℕ) (h : i < l.length) :
    l.getD i d = l.get ⟨i, h⟩ := by
  induction l generalizing i with
  | nil => simp at h
  | cons x xs ih =>
    cases i with
    | zero => rfl
    | succ j => simpa using ih j (by simpa using h)

theorem sorted_getD_mono {α : Type} [LinearOrder α] {l : List α}
    (hs : List.Sorted (· ≤ ·) l) (d : α) {i j : ℕ} (hij : i ≤ j)
    (hj : j < l.length) : l.getD i d ≤ l.getD j d := by
  have hi : i < l.length := lt_of_le_of_lt hij hj
  rw [getD_of_lt l d i hi, getD_of_lt l d j hj]
  exact hs.rel_get_of_le (by exact hij)

theorem list_sum_nonneg (l : List ℝ) (h : ∀ x ∈ l, 0 ≤ x) : 0 ≤ l.sum := by
  induction l with
  | nil => simp
  | cons x xs ih =>
    simp only [List.sum_cons]
    have hx := h x (List.mem_cons_self x xs)
    have hxs := ih fun y hy => h y (List.mem_cons_of_mem x hy)
    linarith

theorem list_sum_map_div (l : List ℝ) (c : ℝ) :
    (l.map fun x => x / c).sum = l.sum / c := by
  induction l with
  | nil => simp
  | cons x xs ih => simp [ih, add_div]

-- ------------------------------ C1 ----------------------------------------

theorem sqrt_five_div_two_ne (c : ℝ) (hc : c ^ 2 ≠ 5 / 4) :
    Real.sqrt 5 / 2 ≠ c := by
  intro h
  apply hc
  rw [← h, div_pow, Real.sq_sqrt (by norm_num : (0:ℝ) ≤ 5)]
  norm_num

theorem calcStats_input0 :
    calculateStatistics [0, 2, 4, 6] =
      { mean := 3, stdDev := Real.sqrt 5, percentile := [0, 2, 4, 6, 6],
        iterations := 4 } := by
  have hsorted : List.insertionSort (· ≤ ·) ([0, 2, 4, 6] : List ℝ) = [0, 2, 4, 6] :=
    List.Sorted.insertionSort_eq (by norm_num [List.sorted_cons])
  unfold calculateStatistics
  rw [hsorted]
  norm_num

/-- C1 (counterexample): at the concrete run [0, 2, 4, 6] the simulator's
result reports mean 3, standard deviation √5, percentiles [0,2,4,6,6] and the
iteration count 4: none of these equals the sample standard error
sample_std / √N = √5 / 2, so no standard error (and hence no confidence
interval built from one) is reported, contradicting the claim. -/
theorem C1_counterexample :
    ¬ (calculateStatistics [0, 2, 4, 6]).reports
        ((calculateStatistics [0, 2, 4, 6]).stdDev /
          Real.sqrt ((calculateStatistics [0, 2, 4, 6]).iterations)) := by
  rw [calcStats_input0]
  have h4 : Real.sqrt ((4 : ℕ) : ℝ) = 2 := by
    rw [show ((4 : ℕ) : ℝ) = 2 ^ 2 by norm_num,
      Real.sqrt_sq (by norm_num : (0:ℝ) ≤ 2)]
  simp only [SimulationResult.reports, h4, List.mem_cons, List.not_mem_nil,
    or_false]
  push_neg
  refine ⟨?_, ?_, ⟨?_, ?_, ?_, ?_, ?_⟩, ?_⟩
  · exact sqrt_five_div_two_ne 3 (by norm_num)
  · exact sqrt_five_div_two_ne (Real.sqrt 5)
      (by rw [Real.sq_sqrt (by norm_num : (0:ℝ) ≤ 5)]; norm_num)
  · exact sqrt_five_div_two_ne 0 (by norm_num)
  · exact sqrt_five_div_two_ne 2 (by norm_num)
  · exact sqrt_five_div_two_ne 4 (by norm_num)
  · exact sqrt_five_div_two_ne 6 (by norm_num)
  · exact sqrt_five_div_two_ne 6 (by norm_num)
  · exact sqrt_five_div_two_ne ((4 : ℕ) : ℝ) (by push_cast; norm_num)

/-- C1 (amended): for every run with N > 0 iterations the returned result
reports the sample mean sum/N, a standard deviation whose square is the
population variance (divisor N), five percentile values, and the iteration
count; no standard error and no confidence interval are part of the result
(at the counterexample input none of the reported values equals
sample_std / √N). -/
theorem C1_amended_stats_reported (results : List ℝ) (h : 0 < results.length) :
    (calculateStatistics results).iterations = results.length ∧
    (calculateStatistics results).mean = results.sum / (results.length : ℝ) ∧
    (calculateStatistics results).stdDev ^ 2 =
      ((results.map fun v =>
        (v - results.sum / (results.length : ℝ)) ^ 2).sum) / (results.length : ℝ) ∧
    (calculateStatistics results).percentile.length = 5 := by
  refine ⟨rfl, rfl, ?_, rfl⟩
  apply Real.sq_sqrt
  apply div_nonneg _ (Nat.cast_nonneg _)
  apply list_sum_nonneg
  intro x hx
  obtain ⟨v, -, rfl⟩ := List.mem_map.mp hx
  positivity

/-- C1 witness: the amended statement instantiated at the run [0, 2, 4, 6]. -/
theorem C1_witness :
    0 < ([0, 2, 4, 6] : List ℝ).length ∧
    ((calculateStatistics [0, 2, 4, 6]).iterations = ([0, 2, 4, 6] : List ℝ).length ∧
     (calculateStatistics [0, 2, 4, 6]).mean =
       ([0, 2, 4, 6] : List ℝ).sum / (([0, 2, 4, 6] : List ℝ).length : ℝ) ∧
     (calculateStatistics [0, 2, 4, 6]).stdDev ^ 2 =
       ((([0, 2, 4, 6] : List ℝ).map fun v =>
         (v - ([0, 2, 4, 6] : List ℝ).sum / (([0, 2, 4, 6] : List ℝ).length : ℝ)) ^ 2).sum) /
         (([0, 2, 4, 6] : List ℝ).length : ℝ) ∧
     (calculateStatistics [0, 2, 4, 6]).percentile.length = 5) :=
  ⟨by simp, C1_amended_stats_reported [0, 2, 4, 6] (by simp)⟩

-- ------------------------------ C10 ---------------------------------------

theorem pct_index_lt (p n : ℕ) (hp : p ≤ 99) (hn : 0 < n) : p * n / 100 < n := by
  apply Nat.div_lt_iff_lt_mul (by norm_num : 0 < 100) |>.mpr
  calc p * n ≤ 99 * n := Nat.mul_le_mul_right n hp
    _ < n * 100 := by omega

/-- C10: for every non-empty input slice, the percentile array produced by
calculateStatistics is in nondecreasing order (5th ≤ 25th ≤ 50th ≤ 75th ≤
95th), because all five values are read from the same ascending-sorted copy
of the results at nondecreasing indices. -/
theorem C10_percentiles_sorted (results : List ℝ) (h : 0 < results.length) :
    List.Sorted (· ≤ ·) (calculateStatistics results).percentile := by
  have hsort : List.Sorted (· ≤ ·) (List.insertionSort (· ≤ ·) results) :=
    List.sorted_insertionSort _ results
  have hlen : (List.insertionSort (· ≤ ·) results).length = results.length :=
    (List.perm_insertionSort _ results).length_eq
  have hmono : ∀ p q : ℕ, p ≤ q → q ≤ 99 →
      (List.insertionSort (· ≤ ·) results).getD (p * results.length / 100) 0 ≤
      (List.insertionSort (· ≤ ·) results).getD (q * results.length / 100) 0 := by
    intro p q hpq hq
    apply sorted_getD_mono hsort 0
    · exact Nat.div_le_div_right (Nat.mul_le_mul_right _ hpq)
    · rw [hlen]; exact pct_index_lt q results.length hq h
  show List.Sorted (· ≤ ·) [_, _, _, _, _]
  simp only [List.sorted_cons, List.mem_cons, List.not_mem_nil, or_false,
    List.mem_singleton, List.sorted_nil, and_true]
  refine ⟨?_, ?_, ?_, ?_⟩
  · rintro b (rfl | rfl | rfl | rfl) <;>
      first
      | exact hmono 5 25 (by norm_num) (by norm_num)
      | exact hmono 5 50 (by norm_num) (by norm_num)
      | exact hmono 5 75 (by norm_num) (by norm_num)
      | exact hmono 5 95 (by norm_num) (by norm_num)
  · rintro b (rfl | rfl | rfl) <;>
      first
      | exact hmono 25 50 (by norm_num) (by norm_num)
      | exact hmono 25 75 (by norm_num) (by norm_num)
      | exact hmono 25 95 (by norm_num) (by norm_num)
  · rintro b (rfl | rfl) <;>
      first
      | exact hmono 50 75 (by norm_num) (by norm_num)
      | exact hmono 50 95 (by norm_num) (by norm_num)
  · refine ⟨?_, fun b hb => hb.elim⟩
    rintro b rfl
    exact hmono 75 95 (by norm_num) (by norm_num)

/-- C10 witness: the percentile array of a concrete one-element run is
nondecreasing. -/
theorem C10_witness :
    0 < ([1] : List ℝ).length ∧
    List.Sorted (· ≤ ·) (calculateStatistics [1]).percentile :=
  ⟨by simp, C10_percentiles_sorted [1] (by simp)⟩

-- ------------------------------ C2 ----------------------------------------

theorem calcStats_singleton_mean (x : ℝ) : (calculateStatistics [x]).mean = x := by
  simp [calculateStatistics]

theorem runMC_singleton (U : ℕ → ℕ → ℝ) (clock : ℕ → ℕ) (mean stdDev : ℝ) :
    runMonteCarloSimulation U clock 1 mean stdDev 1 =
      calculateStatistics
        [simulatePortfolioReturn mean stdDev (U (clock 0) 0) (U (clock 0) 1)] := by
  have hr1 : List.range 1 = [0] := rfl
  simp [runMonteCarloSimulation, workerResults, chunkStart, chunkEnd, hr1]

/-- C2 (counterexample): the very same simulation inputs (1 iteration, mean 0,
standard deviation 1, 1 worker) produce different results under two different
wall-clock environments, because each worker seeds its generator with
time.Now().UnixNano() — there is no caller-controlled seed at all, so two
runs of the simulation need not coincide. -/
theorem C2_counterexample :
    runMonteCarloSimulation mcStream (fun _ => 0) 1 0 1 1 ≠
    runMonteCarloSimulation mcStream (fun _ => 3) 1 0 1 1 := by
  intro h
  have hm := congrArg SimulationResult.mean h
  rw [runMC_singleton, runMC_singleton, calcStats_singleton_mean,
    calcStats_singleton_mean] at hm
  have s4 : Real.sqrt 4 = 2 := by
    rw [show (4:ℝ) = 2 ^ 2 by norm_num, Real.sqrt_sq (by norm_num : (0:ℝ) ≤ 2)]
  have h1 : simulatePortfolioReturn 0 1 (mcStream 0 0) (mcStream 0 1) = 1 := by
    unfold simulatePortfolioReturn mcStream
    norm_num [Real.log_exp, Real.sqrt_one]
  have h2 : simulatePortfolioReturn 0 1 (mcStream 3 0) (mcStream 3 1) = 2 := by
    unfold simulatePortfolioReturn mcStream
    norm_num [Real.log_exp, s4]
  rw [h1, h2] at hm
  norm_num at hm

/-- C2 (amended): the simulation is a function of the wall-clock values the
workers observe: two runs with the same inputs agree whenever every worker
reads the same clock value, and (by the counterexample) may differ
otherwise; no caller-supplied seed exists. -/
theorem C2_amended_clock_determinism (U : ℕ → ℕ → ℝ) (clock clock' : ℕ → ℕ)
    (iterations : ℕ) (mean stdDev : ℝ) (jobs : ℕ)
    (h : ∀ i, i < jobs → clock i = clock' i) :
    runMonteCarloSimulation U clock iterations mean stdDev jobs =
    runMonteCarloSimulation U clock' iterations mean stdDev jobs := by
  unfold runMonteCarloSimulation
  congr 1
  congr 1
  apply List.map_congr_left
  intro i hi
  rw [h i (List.mem_range.mp hi)]

/-- C2 witness: the amended statement instantiated at concrete inputs with
two syntactically different but pointwise equal clock environments. -/
theorem C2_witness :
    (∀ i, i < 1 → (fun j => j * 0) i = (fun _ => 0) i) ∧
    runMonteCarloSimulation (fun _ _ => 0) (fun j => j * 0) 1 0 1 1 =
      runMonteCarloSimulation (fun _ _ => 0) (fun _ => 0) 1 0 1 1 :=
  ⟨fun i _ => Nat.mul_zero i,
   C2_amended_clock_determinism (fun _ _ => 0) (fun j => j * 0) (fun _ => 0)
     1 0 1 1 (fun i _ => Nat.mul_zero i)⟩

-- ------------------------------ C6 ----------------------------------------

-- The type-7 quantile never falls below some element of the series: the
-- sorted entry at the interpolation base index is a member and is ≤ the
-- interpolated value.
theorem quantile_lower (returns : List ℚ) (h : returns ≠ []) :
    ∃ x ∈ returns, x ≤ quantileHistorical returns (1 / 20) := by
  obtain ⟨s, hs⟩ : ∃ s, s = List.insertionSort (· ≤ ·) returns := ⟨_, rfl⟩
  have hsort : List.Sorted (· ≤ ·) s := hs ▸ List.sorted_insertionSort _ returns
  have hmem : ∀ x ∈ s, x ∈ returns := fun x hx =>
    (List.perm_insertionSort _ returns).mem_iff.mp (hs ▸ hx)
  have hn : 0 < s.length := by
    rw [hs, (List.perm_insertionSort _ returns).length_eq]
    exact List.length_pos.mpr h
  simp only [quantileHistorical]
  rw [← hs]
  set n := s.length with hnn
  set q : ℚ := ((n : ℚ) - 1) * (1 / 20) with hq
  set i : ℕ := ⌊q⌋₊ with hi
  have h0 : (0:ℚ) ≤ q := by
    apply mul_nonneg _ (by norm_num)
    have h1n : (1:ℚ) ≤ (n:ℚ) := by exact_mod_cast hn
    linarith
  have hfloor : (i:ℚ) ≤ q := Nat.floor_le h0
  rcases lt_or_ge (i + 1) n with hlt | hge
  · refine ⟨s.getD i 0, hmem _ ?_, ?_⟩
    · rw [getD_of_lt s 0 i (by omega)]
      exact List.get_mem s i (by omega)
    · have h1 : 0 ≤ q - (i:ℚ) := by linarith
      have h2 : s.getD i 0 ≤ s.getD (i + 1) 0 :=
        sorted_getD_mono hsort 0 (Nat.le_succ i) hlt
      have h3 : 0 ≤ (q - (i:ℚ)) * (s.getD (i + 1) 0 - s.getD i 0) :=
        mul_nonneg h1 (by linarith)
      linarith
  · have hn1 : n = 1 := by
      have hle : (n - 1 : ℕ) ≤ i := by omega
      have h4 : ((n - 1 : ℕ) : ℚ) ≤ (i:ℚ) := by exact_mod_cast hle
      have hcast : ((n:ℚ) - 1) ≤ (i:ℚ) := by
        rwa [Nat.cast_sub (by omega : 1 ≤ n), Nat.cast_one] at h4
      have hnn1 : (0:ℚ) ≤ (n:ℚ) - 1 := by
        have h1n : (1:ℚ) ≤ (n:ℚ) := by exact_mod_cast hn
        linarith
      have hup : (i:ℚ) ≤ ((n:ℚ) - 1) * (1 / 20) := hfloor
      have hle0 : (n:ℚ) - 1 ≤ 0 := by linarith
      have heq : (n:ℚ) = 1 := by linarith
      exact_mod_cast heq
    have hq0 : q = 0 := by rw [hq, hn1]; norm_num
    have hi0 : i = 0 := by rw [hi, hq0]; simp
    refine ⟨s.getD i 0, hmem _ ?_, ?_⟩
    · rw [getD_of_lt s 0 i (by omega)]
      exact List.get_mem s i (by omega)
    · rw [hq0, hi0]
      norm_num

/-- C6 (counterexample): for the series [-1, 1] the historical 95% VaR is
-9/10 while the CVaR (the mean of the returns at or below the VaR) is -1,
so CVaR < VaR: in the return-space sign convention of risk_models.R the
claimed inequality CVaR ≥ VaR fails. -/
theorem C6_counterexample :
    ¬ (calculate_var [-1, 1] (95 / 100) ≤ calculate_cvar [-1, 1] (95 / 100)) := by
  have hf : ⌊(1:ℚ)/20⌋₊ = 0 := Nat.floor_eq_zero.mpr (by norm_num)
  norm_num [calculate_var, calculate_cvar, quantileHistorical,
    List.insertionSort, List.orderedInsert, hf, List.filter]

/-- C6 (amended): for every non-empty return series, the CVaR computed by
calculate_cvar is ≤ the historical VaR computed by calculate_var at the 95%
level: CVaR is the average of the returns at or below the VaR threshold,
and that left tail is non-empty because the type-7 quantile is bounded
below by a member of the series. -/
theorem C6_amended_cvar_le_var (returns : List ℚ) (h : returns ≠ []) :
    calculate_cvar returns (95 / 100) ≤ calculate_var returns (95 / 100) := by
  have hv : calculate_var returns (95 / 100) = quantileHistorical returns (1 / 20) := by
    rw [calculate_var, show (1:ℚ) - 95 / 100 = 1 / 20 by norm_num]
  obtain ⟨x, hxmem, hxle⟩ := quantile_lower returns h
  simp only [calculate_cvar]
  rw [hv]
  set v := quantileHistorical returns (1 / 20) with hvv
  set t := returns.filter (fun y => decide (y ≤ v)) with ht
  have hxt : x ∈ t := by
    rw [ht]
    exact List.mem_filter.mpr ⟨hxmem, by simpa using hxle⟩
  have hlen : 0 < t.length := List.length_pos.mpr (List.ne_nil_of_mem hxt)
  have hall : ∀ y ∈ t, y ≤ v := by
    intro y hy
    rw [ht] at hy
    simpa using (List.mem_filter.mp hy).2
  have hsum := List.sum_le_card_nsmul t v hall
  rw [nsmul_eq_mul] at hsum
  rw [div_le_iff₀ (by exact_mod_cast hlen : (0:ℚ) < (t.length : ℚ))]
  exact hsum.trans_eq (mul_comm _ _)

/-- C6 witness: the amended inequality instantiated at the series [0]. -/
theorem C6_witness :
    ([0] : List ℚ) ≠ [] ∧
    calculate_cvar [0] (95 / 100) ≤ calculate_var [0] (95 / 100) :=
  ⟨by simp, C6_amended_cvar_le_var [0] (by simp)⟩

-- ------------------------------ C8 ----------------------------------------

/-- C8: for every weight vector and symmetric covariance matrix with positive
portfolio variance, the component risk contributions of risk_decomposition
sum to the total portfolio volatility √(wᵀΣw), and the percentage
contributions sum to 100. -/
theorem C8_risk_contributions_sum {n : ℕ} (w : Fin n → ℝ)
    (cov : Matrix (Fin n) (Fin n) ℝ) (hsym : cov.IsSymm)
    (hpos : 0 < portfolio_variance w cov) :
    (∑ i, (risk_decomposition w cov).component_contribution i) =
      (risk_decomposition w cov).total_volatility ∧
    (∑ i, (risk_decomposition w cov).percentage_contribution i) = 100 := by
  have hvol : 0 < Real.sqrt (portfolio_variance w cov) := Real.sqrt_pos.mpr hpos
  have hcomp : (∑ i, (risk_decomposition w cov).component_contribution i) =
      Real.sqrt (portfolio_variance w cov) := by
    simp only [risk_decomposition]
    have hstep : ∀ i, w i * (cov.mulVec w i / Real.sqrt (portfolio_variance w cov)) =
        w i * cov.mulVec w i / Real.sqrt (portfolio_variance w cov) := by
      intro i
      ring
    rw [Finset.sum_congr rfl fun i _ => hstep i, ← Finset.sum_div]
    rw [show (∑ i, w i * cov.mulVec w i) = portfolio_variance w cov from rfl]
    exact Real.div_sqrt
  refine ⟨hcomp, ?_⟩
  have hpct : ∀ i, (risk_decomposition w cov).percentage_contribution i =
      (risk_decomposition w cov).component_contribution i /
        Real.sqrt (portfolio_variance w cov) * 100 := by
    intro i
    simp only [risk_decomposition]
  rw [Finset.sum_congr rfl fun i _ => hpct i, ← Finset.sum_mul, ← Finset.sum_div,
    hcomp, div_self hvol.ne']
  norm_num

/-- C8 witness: the decomposition sums instantiated at the one-asset
portfolio with unit weight and unit covariance, where wᵀΣw = 1 > 0. -/
theorem C8_witness :
    cov1.IsSymm ∧ 0 < portfolio_variance w1 cov1 ∧
    ((∑ i, (risk_decomposition w1 cov1).component_contribution i) =
      (risk_decomposition w1 cov1).total_volatility ∧
     (∑ i, (risk_decomposition w1 cov1).percentage_contribution i) = 100) := by
  have hsym : cov1.IsSymm := by
    ext i j
    rfl
  have hpos : 0 < portfolio_variance w1 cov1 := by
    simp [portfolio_variance, w1, cov1, Matrix.mulVec, Matrix.dotProduct]
  exact ⟨hsym, hpos, C8_risk_contributions_sum w1 cov1 hsym hpos⟩

-- ----------------------- dot-product helpers ------------------------------

theorem dotL_nil_right (x : List ℝ) : dotL x [] = 0 := by
  cases x <;> simp [dotL]

theorem dotL_cons (a b : ℝ) (xs ys : List ℝ) :
    dotL (a :: xs) (b :: ys) = a * b + dotL xs ys := by
  simp [dotL]

theorem dotL_comm (x y : List ℝ) : dotL x y = dotL y x := by
  induction x generalizing y with
  | nil => cases y <;> simp [dotL]
  | cons a xs ih =>
    cases y with
    | nil => simp [dotL]
    | cons b ys => rw [dotL_cons, dotL_cons, ih, mul_comm]

theorem dotL_replicate_one (w : List ℝ) : dotL (List.replicate w.length 1) w = w.sum := by
  induction w with
  | nil => simp [dotL]
  | cons a xs ih => simpa [List.replicate, dotL_cons] using ih

theorem dotL_zero_left (xs : List ℝ) (w : List ℝ) (h : ∀ c ∈ xs, c = 0) :
    dotL xs w = 0 := by
  induction xs generalizing w with
  | nil => simp [dotL]
  | cons c cs ih =>
    cases w with
    | nil => exact dotL_nil_right _
    | cons b bs =>
      rw [dotL_cons, h c (List.mem_cons_self c cs),
        ih bs fun d hd => h d (List.mem_cons_of_mem c hd)]
      ring

theorem dotL_stdBasis (w : List ℝ) (i : ℕ) (hi : i < w.length) :
    dotL (stdBasis w.length i) w = w.getD i 0 := by
  induction w generalizing i with
  | nil => simp at hi
  | cons a xs ih =>
    rw [show (a :: xs).length = xs.length + 1 from rfl]
    rw [stdBasis, List.range_succ_eq_map, List.map_cons, List.map_map]
    cases i with
    | zero =>
      rw [if_pos rfl, dotL_cons, one_mul, dotL_zero_left _ _ ?haux, List.getD_cons_zero,
        add_zero]
      intro c hc
      obtain ⟨j, -, rfl⟩ := List.mem_map.mp hc
      simp
    | succ i' =>
      rw [if_neg (by omega), dotL_cons, zero_mul, zero_add, List.getD_cons_succ]
      have hmap : (List.range xs.length).map ((fun j => if j = i' + 1 then (1:ℝ) else 0) ∘ Nat.succ)
          = stdBasis xs.length i' := by
        apply List.map_congr_left
        intro j _
        simp only [Function.comp_apply, stdBasis]
        by_cases hj : j = i'
        · rw [if_pos (by omega), if_pos hj]
        · rw [if_neg (by omega), if_neg hj]
      rw [hmap]
      exact ih i' (by simpa using hi)

-- ------------------------------ C4 ----------------------------------------

/-- C4: for every solver honouring the solve.QP contract, every μ, Σ and
every target return at which the solve succeeds, the Markowitz weights sum
to 1 (within 1e-8) and realise the target portfolio return wᵀμ = t (within
1e-6): both are equality constraints (meq = 2) of the assembled QP, so they
hold exactly. -/
theorem C4_markowitz_budget_and_target (solveQP : QPProblem → Option (List ℝ))
    (hspec : QPSolverSpec solveQP) (expected_returns : List ℝ)
    (cov_matrix : List (List ℝ)) (t : ℝ) (res : OptResult)
    (hrun : markowitz_optimization solveQP expected_returns cov_matrix (some t)
      = some res) :
    |res.weights.sum - 1| ≤ 1 / 10 ^ 8 ∧
    |dotL res.weights expected_returns - t| ≤ 1 / 10 ^ 6 := by
  rw [markowitz_optimization] at hrun
  obtain ⟨w, hw, hres⟩ := Option.map_eq_some'.mp hrun
  obtain ⟨hlenw, hcons⟩ := hspec _ _ hw
  have hwr : res.weights = w := by rw [← hres]
  have hn : w.length = expected_returns.length := by
    simpa [markowitzProblem] using hlenw
  have hclen :
      (markowitzProblem expected_returns cov_matrix (some t)).constraints.length
        = 2 + expected_returns.length := by
    simp only [markowitzProblem, diagConstraints, List.length_cons,
      List.length_map, List.length_range]
    omega
  have h0 := (hcons 0 (by omega)).1 (by simp [markowitzProblem])
  have h1 := (hcons 1 (by omega)).1 (by simp [markowitzProblem])
  simp only [markowitzProblem, List.getD_cons_zero, List.getD_cons_succ] at h0 h1
  -- h0 : dotL (onesL n) w = 1, h1 : dotL μ w = t
  have hsum : w.sum = 1 := by
    rw [onesL, ← hn] at h0
    rw [← dotL_replicate_one w]
    exact h0
  have htgt : dotL w expected_returns = t := by
    rw [dotL_comm]
    exact h1
  rw [hwr, hsum, htgt]
  norm_num

theorem oracleSolver_spec (w0 : List ℝ) : QPSolverSpec (oracleSolver w0) := by
  intro p w hw
  by_cases hsat : satisfiesQP p w0
  · simp only [oracleSolver, if_pos hsat] at hw
    injection hw with hw
    rwa [← hw]
  · simp only [oracleSolver, if_neg hsat] at hw
    exact Option.noConfusion hw

theorem c4sat : satisfiesQP (markowitzProblem [1 / 10] [[1]] (some (1 / 10))) [1] := by
  constructor
  · simp [markowitzProblem]
  · intro j hj
    have hr1 : List.range 1 = [0] := rfl
    simp only [markowitzProblem, diagConstraints, stdBasis, onesL, hr1,
      List.length_cons, List.length_map, List.length_nil, List.map_cons,
      List.map_nil, List.replicate] at hj ⊢
    interval_cases j <;>
      constructor <;>
        intro hm <;>
          simp_all [dotL]

theorem c4run_eq :
    markowitz_optimization (oracleSolver [1]) [1 / 10] [[1]] (some (1 / 10))
      = some c4res := by
  simp only [markowitz_optimization, oracleSolver, if_pos c4sat, Option.map_some]
  rfl

/-- C4 witness: the theorem applied to the oracle solver on the one-asset
instance μ = [1/10], Σ = [[1]], t = 1/10, whose solution is w = [1]. -/
theorem C4_witness :
    markowitz_optimization (oracleSolver [1]) [1 / 10] [[1]] (some (1 / 10))
      = some c4res ∧
    (|c4res.weights.sum - 1| ≤ 1 / 10 ^ 8 ∧
     |dotL c4res.weights [1 / 10] - 1 / 10| ≤ 1 / 10 ^ 6) :=
  ⟨c4run_eq,
   C4_markowitz_budget_and_target (oracleSolver [1]) (oracleSolver_spec [1])
     [1 / 10] [[1]] (1 / 10) c4res c4run_eq⟩

-- ------------------------------ C9 ----------------------------------------

theorem diag_getD (n k : ℕ) (hk : k < n) :
    (diagConstraints n).getD k ⟨[], 0⟩ = ⟨stdBasis n k, 0⟩ := by
  have hlen : k < (diagConstraints n).length := by
    simpa [diagConstraints] using hk
  rw [getD_of_lt _ _ k hlen]
  simp [diagConstraints, List.get_eq_getElem]

/-- C9: every weight vector produced by markowitz_optimization through a
contract-honouring solver is componentwise nonnegative: both the
minimum-variance branch and the target-return branch append the identity
matrix diag(n) to Amat with bvec entries 0, imposing w ≥ 0 as inequality
constraints. -/
theorem C9_markowitz_nonneg (solveQP : QPProblem → Option (List ℝ))
    (hspec : QPSolverSpec solveQP) (expected_returns : List ℝ)
    (cov_matrix : List (List ℝ)) (target_return : Option ℝ) (res : OptResult)
    (hrun : markowitz_optimization solveQP expected_returns cov_matrix target_return
      = some res) :
    ∀ x ∈ res.weights, 0 ≤ x := by
  rw [markowitz_optimization] at hrun
  obtain ⟨w, hw, hres⟩ := Option.map_eq_some'.mp hrun
  obtain ⟨hlenw, hcons⟩ := hspec _ _ hw
  have hwr : res.weights = w := by rw [← hres]
  rw [hwr]
  have hn : w.length = expected_returns.length := by
    rcases target_return with _ | t <;> simpa [markowitzProblem] using hlenw
  have hk : ∀ k, k < w.length → (0:ℝ) ≤ w.getD k 0 := by
    intro k hkw
    have hkn : k < expected_returns.length := hn ▸ hkw
    have hbasis : dotL (stdBasis w.length k) w = w.getD k 0 := dotL_stdBasis w k hkw
    rw [hn] at hbasis
    rcases target_return with _ | t
    · have hclen : (markowitzProblem expected_returns cov_matrix none).constraints.length
          = 1 + expected_returns.length := by
        simp only [markowitzProblem, diagConstraints, List.length_cons,
          List.length_map, List.length_range]
        omega
      have hcon := (hcons (1 + k) (by omega)).2 (by simp [markowitzProblem])
      simp only [markowitzProblem] at hcon
      rw [show 1 + k = k + 1 by omega, List.getD_cons_succ,
        diag_getD expected_returns.length k hkn] at hcon
      rw [← hbasis]
      exact hcon
    · have hclen :
          (markowitzProblem expected_returns cov_matrix (some t)).constraints.length
            = 2 + expected_returns.length := by
        simp only [markowitzProblem, diagConstraints, List.length_cons,
          List.length_map, List.length_range]
        omega
      have hcon := (hcons (2 + k) (by omega)).2 (by simp [markowitzProblem])
      simp only [markowitzProblem] at hcon
      rw [show 2 + k = (k + 1) + 1 by omega, List.getD_cons_succ, List.getD_cons_succ,
        diag_getD expected_returns.length k hkn] at hcon
      rw [← hbasis]
      exact hcon
  intro x hx
  obtain ⟨⟨k, hklt⟩, hget⟩ := List.mem_iff_get.mp hx
  rw [← hget, ← getD_of_lt w 0 k hklt]
  exact hk k hklt

theorem c9sat : satisfiesQP (markowitzProblem [1 / 10] [[1]] none) [1] := by
  constructor
  · simp [markowitzProblem]
  · intro j hj
    have hr1 : List.range 1 = [0] := rfl
    simp only [markowitzProblem, diagConstraints, stdBasis, onesL, hr1,
      List.length_cons, List.length_map, List.length_nil, List.map_cons,
      List.map_nil, List.replicate] at hj ⊢
    interval_cases j <;>
      constructor <;>
        intro hm <;>
          simp_all [dotL]

theorem c9run_eq :
    markowitz_optimization (oracleSolver [1]) [1 / 10] [[1]] none = some c4res := by
  simp only [markowitz_optimization, oracleSolver, if_pos c9sat, Option.map_some]
  rfl

/-- C9 witness: the theorem applied to the oracle solver on the one-asset
minimum-variance instance, whose solution [1] is indeed nonnegative. -/
theorem C9_witness :
    markowitz_optimization (oracleSolver [1]) [1 / 10] [[1]] none = some c4res ∧
    ∀ x ∈ c4res.weights, 0 ≤ x :=
  ⟨c9run_eq,
   C9_markowitz_nonneg (oracleSolver [1]) (oracleSolver_spec [1]) [1 / 10] [[1]]
     none c4res c9run_eq⟩

-- ------------------------------ C3 ----------------------------------------

/-- C3 (code bug, evaluation): with a solver that raises on every target
(e.g. solve.QP on a non-positive-definite D), efficient_frontier over
μ = [0, 1] with 2 swept points returns two rows — the zero-initialised rows
(0, 0, 0) — instead of the empty frontier: the error handler's
`frontier[i, ] <- NA` assigns to a local copy, so na.omit finds no NA and
the fabricated zero rows survive, contradicting the source's own
"Remove failed optimizations" comment. -/
theorem C3_fabricated_rows :
    efficient_frontier failQP [0, 1] [[1, 0], [0, 1]] 2 = [initRow, initRow] := by
  have hr2 : List.range 2 = [0, 1] := rfl
  simp [efficient_frontier, targetReturns, frontierRow, markowitz_optimization,
    failQP, rowComplete, initRow, hr2]

-- ------------------------------ C5 ----------------------------------------

theorem getD_range_map {α : Type} (f : ℕ → α) (n i : ℕ) (d : α) (h : i < n) :
    ((List.range n).map f).getD i d = f i := by
  rw [List.getD_eq_getElem?_getD, List.getElem?_map, List.getElem?_range h]
  rfl

theorem getD_replicate {α : Type} (a d : α) (n i : ℕ) (h : i < n) :
    (List.replicate n a).getD i d = a := by
  rw [List.getD_eq_getElem?_getD, List.getElem?_replicate, if_pos h]
  rfl

theorem projOptim_bounded (pick : List ℝ → ℕ → ℝ) : OptimBounded (projOptim pick) := by
  intro par fn lower upper hlo hhi hbound
  constructor
  · simp [projOptim]
  · intro i hi
    simp only [projOptim]
    rw [getD_range_map _ _ i 0 hi]
    exact ⟨le_max_left _ _, max_le (hbound i hi) (min_le_right _ _)⟩

/-- C5 (counterexample): the bounded optimiser that returns the zero vector
(allowed by the L-BFGS-B box contract with lower bounds 0) makes
max_sharpe_portfolio normalise by sum(par) = 0, so the returned weights sum
to 0, not 1: the claim fails for this input. -/
theorem C5_counterexample :
    ¬ ∀ (optim : List ℝ → (List ℝ → ℝ) → List ℝ → List ℝ → List ℝ),
        OptimBounded optim →
        ∀ (expected_returns : List ℝ) (cov_matrix : List (List ℝ)) (rf_rate : ℝ),
          (∀ x ∈ (max_sharpe_portfolio optim expected_returns cov_matrix rf_rate).weights,
            0 ≤ x) ∧
          (max_sharpe_portfolio optim expected_returns cov_matrix rf_rate).weights.sum
            = 1 := by
  intro hclaim
  have h := (hclaim zeroOpt (projOptim_bounded _) [1 / 10] [[1]] (2 / 100)).2
  have hpar : msPar zeroOpt [1 / 10] [[1]] (2 / 100) = [0] := by
    have hr1 : List.range 1 = [0] := rfl
    simp [msPar, zeroOpt, projOptim, hr1]
  rw [show (max_sharpe_portfolio zeroOpt [1 / 10] [[1]] (2 / 100)).weights
      = (msPar zeroOpt [1 / 10] [[1]] (2 / 100)).map
          (fun x => x / (msPar zeroOpt [1 / 10] [[1]] (2 / 100)).sum) from rfl,
    hpar] at h
  simp at h

/-- C5 (amended): for every optimiser honouring the L-BFGS-B box contract,
whenever the optimiser's raw output has positive sum, the weights returned
by max_sharpe_portfolio are componentwise nonnegative and sum exactly to 1
(the division by sum(par) removes any drift); when the raw output sums to
zero — possible under the box contract — the normalisation fails, as the
counterexample shows. -/
theorem C5_amended_normalization
    (optim : List ℝ → (List ℝ → ℝ) → List ℝ → List ℝ → List ℝ)
    (hb : OptimBounded optim) (expected_returns : List ℝ)
    (cov_matrix : List (List ℝ)) (rf_rate : ℝ)
    (hsum : 0 < (msPar optim expected_returns cov_matrix rf_rate).sum) :
    (max_sharpe_portfolio optim expected_returns cov_matrix rf_rate).weights.sum = 1 ∧
    ∀ x ∈ (max_sharpe_portfolio optim expected_returns cov_matrix rf_rate).weights,
      0 ≤ x := by
  have hws : (max_sharpe_portfolio optim expected_returns cov_matrix rf_rate).weights
      = (msPar optim expected_returns cov_matrix rf_rate).map
          (fun x => x / (msPar optim expected_returns cov_matrix rf_rate).sum) := rfl
  have hmsPar : msPar optim expected_returns cov_matrix rf_rate
      = optim (List.replicate expected_returns.length (1 / (expected_returns.length : ℝ)))
          (msObjective expected_returns cov_matrix rf_rate)
          (List.replicate expected_returns.length 0)
          (List.replicate expected_returns.length 1) := rfl
  obtain ⟨hlen, hbnd⟩ := hb
    (List.replicate expected_returns.length (1 / (expected_returns.length : ℝ)))
    (msObjective expected_returns cov_matrix rf_rate)
    (List.replicate expected_returns.length 0)
    (List.replicate expected_returns.length 1)
    (by simp) (by simp)
    (fun i hi => by
      rw [getD_replicate _ _ _ i (by simpa using hi),
        getD_replicate _ _ _ i (by simpa using hi)]
      norm_num)
  have hnn : ∀ y ∈ msPar optim expected_returns cov_matrix rf_rate, 0 ≤ y := by
    intro y hy
    rw [hmsPar] at hy
    obtain ⟨⟨k, hklt⟩, hget⟩ := List.mem_iff_get.mp hy
    have hkn : k < expected_returns.length := by
      have := hklt
      rw [hlen] at this
      simpa using this
    have hb0 := (hbnd k (by simpa using hkn)).1
    rw [getD_replicate _ _ _ k (by simpa using hkn)] at hb0
    rw [← hget, ← getD_of_lt _ 0 k hklt]
    exact hb0
  constructor
  · rw [hws, list_sum_map_div, div_self hsum.ne']
  · rw [hws]
    intro x hx
    obtain ⟨y, hy, rfl⟩ := List.mem_map.mp hx
    exact div_nonneg (hnn y hy) hsum.le

theorem echo_msPar : msPar echoOpt [1 / 10] [[1]] (2 / 100) = [1] := by
  have hr1 : List.range 1 = [0] := rfl
  simp [msPar, echoOpt, projOptim, hr1]

/-- C5 witness: the amended statement instantiated at the one-asset instance
with the bounded optimiser that returns its (clamped) start vector [1]. -/
theorem C5_witness :
    0 < (msPar echoOpt [1 / 10] [[1]] (2 / 100)).sum ∧
    ((max_sharpe_portfolio echoOpt [1 / 10] [[1]] (2 / 100)).weights.sum = 1 ∧
     ∀ x ∈ (max_sharpe_portfolio echoOpt [1 / 10] [[1]] (2 / 100)).weights, 0 ≤ x) :=
  ⟨by rw [echo_msPar]; norm_num,
   C5_amended_normalization echoOpt (projOptim_bounded _) [1 / 10] [[1]] (2 / 100)
     (by rw [echo_msPar]; norm_num)⟩

-- ------------------------------ C7 ----------------------------------------

/-- C7 (counterexample): the request S=1, K=1, T=1, r=0, sigma=-1 carries an
invalid numeric input (negative volatility), yet the pricing route does not
reject it: the handler only checks field presence/truthiness, so the
computation runs on the invalid input, contradicting the claim that invalid
numeric inputs are rejected with a domain error before any computation. -/
theorem C7_counterexample :
    ¬ ∀ (runBlackScholes : BSRequest → ℝ) (req : BSRequest),
        invalidBSNumeric req →
        ∃ msg, bsPOST runBlackScholes req = BSOutcome.rejected msg := by
  intro hclaim
  obtain ⟨msg, hmsg⟩ := hclaim (fun _ => 0)
    { S := some 1, K := some 1, T := some 1, r := some 0, sigma := some (-1),
      q := some 0 }
    (Or.inr (Or.inr (Or.inr ⟨-1, rfl, by norm_num⟩)))
  simp [bsPOST, falsy] at hmsg

/-- C7 (amended): the pricing route rejects exactly the requests with an
absent-or-zero S, K, T or sigma or an absent r — a presence check with a
generic message, not a sign check naming the field — and the Monte Carlo
endpoint, handed the invalid iteration count N = 0, silently substitutes the
default 10000 and runs the simulation instead of rejecting. -/
theorem C7_amended_presence_only_validation :
    (∀ (runBlackScholes : BSRequest → ℝ) (req : BSRequest),
        (bsPOST runBlackScholes req).isRejected =
          (falsy req.S || falsy req.K || falsy req.T || req.r.isNone ||
            falsy req.sigma)) ∧
    (∀ (U : ℕ → ℕ → ℝ) (clock : ℕ → ℕ) (jobs : ℤ) (mean stdDev : ℝ),
        runMonteCarloAPI U clock 0 jobs mean stdDev =
          MCOutcome.ok (runMonteCarloSimulation U clock 10000 mean stdDev
            (if jobs = 0 then (4:ℤ) else jobs).toNat)) := by
  constructor
  · intro runBlackScholes req
    rw [bsPOST]
    split
    · rename_i hcond
      simp only [BSOutcome.isRejected]
      exact hcond.symm
    · rename_i hcond
      simp only [BSOutcome.isRejected]
      exact (Bool.not_eq_true _).mp hcond |>.symm
  · intro U clock jobs mean stdDev
    simp [runMonteCarloAPI]
